import Mathlib

/-!
Verification development for the orion cryptographic library
(ChaCha20/HChaCha20 stream-cipher engine, one-shot XChaCha20-Poly1305 AEAD,
and the stateful secret-stream construction).

Bytes are modelled as `Nat` (values kept below 256 by the operations that
produce them), 32-bit words as `Nat` reduced modulo 2^32 wherever the Rust
source wraps.  Fallible Rust code returns `Res`: `CErr.crypto` models the
opaque `UnknownCryptoError` return and `CErr.panic` models a Rust panic
(`unwrap`/`assert!`/`checked_add(..).unwrap()`).
-/

set_option maxRecDepth 100000

namespace Orion

/-- CErr distinguishes the two failure modes of the Rust source: the opaque
`UnknownCryptoError` error return, and a panic. -/
inductive CErr where
  | crypto
  | panic
deriving DecidableEq, Repr

/-- Res is the result type used throughout the embedding. -/
inductive Res (α : Type) where
  | ok : α → Res α
  | error : CErr → Res α
deriving DecidableEq, Repr

/-- Res.isOk is true exactly on successful results. -/
def Res.isOk {α : Type} : Res α → Bool
  | .ok _ => true
  | .error _ => false

/-- wrap32 reduces a value into u32 range. -/
def wrap32 (a : Nat) : Nat := a % 4294967296

/-- wadd models `u32::wrapping_add`. -/
def wadd (a b : Nat) : Nat := (a + b) % 4294967296

/-- rotl32 models `u32::rotate_left`. -/
def rotl32 (a n : Nat) : Nat :=
  ((a % 4294967296) * 2 ^ n) % 4294967296 ||| (a % 4294967296) / 2 ^ (32 - n)

/-- xorb models byte/word XOR (`^=` in the source). -/
def xorb (a b : Nat) : Nat := a ^^^ b

/-- leBytesToNat interprets a byte list as a little-endian natural. -/
def leBytesToNat : List Nat → Nat
  | [] => 0
  | b :: bs => b + 256 * leBytesToNat bs

/-- natToLeBytes n v serializes v into n little-endian bytes (truncating),
modelling `to_le_bytes` on fixed-width integers. -/
def natToLeBytes : Nat → Nat → List Nat
  | 0, _ => []
  | m + 1, v => v % 256 :: natToLeBytes m (v / 256)

/-- load_u32_le models `endianness::load_u32_le` on a 4-byte slice. -/
def load_u32_le (b : List Nat) : Nat := leBytesToNat (b.take 4)

/-- storeWordLE models one `u32::to_le_bytes` store. -/
def storeWordLE (w : Nat) : List Nat := natToLeBytes 4 w

/-- chunksByAux is the fuel-based recursion behind `chunksBy` (structural in
the fuel so that the kernel can evaluate it). -/
def chunksByAux (m : Nat) : Nat → List Nat → List (List Nat)
  | _, [] => []
  | 0, _ :: _ => []
  | fuel + 1, a :: as =>
    (a :: as).take (m + 1) :: chunksByAux m fuel ((a :: as).drop (m + 1))

/-- chunksBy m splits a list into chunks of size m+1, modelling
`slice::chunks(m+1)`: a non-empty list yields its first m+1 elements
followed by the chunks of the rest. -/
def chunksBy (m : Nat) (l : List Nat) : List (List Nat) :=
  chunksByAux m l.length l

/-- chunks64 models `chunks(CHACHA_BLOCKSIZE)`. -/
def chunks64 (l : List Nat) : List (List Nat) := chunksBy 63 l

/-- loadWordsLE models `endianness::load_u32_into_le`: bytes to LE u32 words. -/
def loadWordsLE (bytes : List Nat) : List Nat := (chunksBy 3 bytes).map load_u32_le

/-- storeWordsLE models `endianness::store_u32_into_le`: u32 words to LE bytes. -/
def storeWordsLE (ws : List Nat) : List Nat := (ws.map storeWordLE).flatten

/-- InternalState embeds `chacha20::InternalState`: 16 state words, the
internal invocation counter, and the IETF/HChaCha mode flag. -/
structure InternalState where
  state : List Nat
  internal_counter : Nat
  is_ietf : Bool
deriving DecidableEq, Repr

/-- quarter_round embeds `InternalState::quarter_round` line by line. -/
def quarter_round (st : List Nat) (x y z w : Nat) : List Nat :=
  let st := st.set x (wadd (st.getD x 0) (st.getD y 0))
  let st := st.set w (xorb (st.getD w 0) (st.getD x 0))
  let st := st.set w (rotl32 (st.getD w 0) 16)
  let st := st.set z (wadd (st.getD z 0) (st.getD w 0))
  let st := st.set y (xorb (st.getD y 0) (st.getD z 0))
  let st := st.set y (rotl32 (st.getD y 0) 12)
  let st := st.set x (wadd (st.getD x 0) (st.getD y 0))
  let st := st.set w (xorb (st.getD w 0) (st.getD x 0))
  let st := st.set w (rotl32 (st.getD w 0) 8)
  let st := st.set z (wadd (st.getD z 0) (st.getD w 0))
  let st := st.set y (xorb (st.getD y 0) (st.getD z 0))
  let st := st.set y (rotl32 (st.getD y 0) 7)
  st

/-- process_inner_block embeds `InternalState::process_inner_block`:
4 column quarter-rounds then 4 diagonal quarter-rounds. -/
def process_inner_block (st : List Nat) : List Nat :=
  let st := quarter_round st 0 4 8 12
  let st := quarter_round st 1 5 9 13
  let st := quarter_round st 2 6 10 14
  let st := quarter_round st 3 7 11 15
  let st := quarter_round st 0 5 10 15
  let st := quarter_round st 1 6 11 12
  let st := quarter_round st 2 7 8 13
  let st := quarter_round st 3 4 9 14
  st

/-- iterInner applies `process_inner_block` n times. -/
def iterInner : Nat → List Nat → List Nat
  | 0, st => st
  | n + 1, st => iterInner n (process_inner_block st)

/-- tenRounds runs the `for _ in 0..10` loop of `process_block`. -/
def tenRounds (st : List Nat) : List Nat := iterInner 10 st

/-- chachaInit embeds `InternalState::init`.  The nonce-length checks return
the opaque error exactly as in the source; a key slice that is not 32 bytes
would trip the `assert!` inside `load_u32_into_le`, modelled as a panic
(the Rust `SecretKey` type guarantees 32 bytes). -/
def chachaInit (secret_key : List Nat) (nonce : List Nat) (is_ietf : Bool) :
    Res InternalState :=
  if nonce.length ≠ 12 ∧ is_ietf = true then .error .crypto
  else if nonce.length ≠ 16 ∧ is_ietf = false then .error .crypto
  else if secret_key.length ≠ 32 then .error .panic
  else
    .ok { state :=
            [0x61707865, 0x3320646e, 0x79622d32, 0x6b206574]
              ++ loadWordsLE secret_key
              ++ (if is_ietf then 0 :: loadWordsLE nonce else loadWordsLE nonce),
          internal_counter := 0,
          is_ietf := is_ietf }

/-- process_block embeds `InternalState::process_block`: mode/counter checks,
the internal-counter `checked_add(1).unwrap()` (panic on exhaustion), the
write of the block counter into word 12 (IETF only), ten double-rounds, and
the feed-forward addition (IETF only).  Returns the keystream state together
with the updated `InternalState`. -/
def process_block (s : InternalState) (block_count : Option Nat) :
    Res (List Nat × InternalState) :=
  if s.is_ietf = true ∧ block_count = none then .error .crypto
  else if s.is_ietf = false ∧ block_count ≠ none then .error .crypto
  else if 4294967296 ≤ s.internal_counter + 1 then .error .panic
  else
    let s1 : InternalState :=
      { state := if s.is_ietf then s.state.set 12 (block_count.getD 0) else s.state,
        internal_counter := s.internal_counter + 1,
        is_ietf := s.is_ietf }
    let ws := tenRounds s1.state
    let ws := if s.is_ietf then List.zipWith wadd ws s1.state else ws
    .ok (ws, s1)

/-- serialize_block embeds `InternalState::serialize_block`; the destination
is modelled by its length, and the serialized bytes are returned. -/
def serialize_block (s : InternalState) (src : List Nat) (dst_len : Nat) :
    Res (List Nat) :=
  if dst_len ≠ 64 ∧ s.is_ietf = true then .error .crypto
  else if dst_len ≠ 32 ∧ s.is_ietf = false then .error .crypto
  else if s.is_ietf then .ok (storeWordsLE src)
  else .ok (storeWordsLE (src.take 4 ++ (src.drop 12).take 4))

/-- keystream_block embeds `chacha20::keystream_block`. -/
def keystream_block (secret_key nonce : List Nat) (counter : Nat) :
    Res (List Nat) :=
  match chachaInit secret_key nonce true with
  | .error e => .error e
  | .ok s =>
    match process_block s (some counter) with
    | .error e => .error e
    | .ok (ks, s1) => serialize_block s1 ks 64

/-- hchacha20 embeds `chacha20::hchacha20`. -/
def hchacha20 (secret_key nonce : List Nat) : Res (List Nat) :=
  match chachaInit secret_key nonce false with
  | .error e => .error e
  | .ok s =>
    match process_block s none with
    | .error e => .error e
    | .ok (ks, s1) => serialize_block s1 ks 32

/-- encryptLoop embeds the `for (counter, (plaintext_block, ciphertext_block))`
loop of `chacha20::encrypt` over the zipped 64-byte chunks of the plaintext
and of the destination buffer.  `idx` is the `enumerate` index; the block
counter for chunk `idx` is `initial_counter.checked_add(idx as u32)` (the
`as u32` truncation is modelled by `% 2^32`), failing with the opaque error
on u32 overflow.  When the destination chunk is a full block the serialized
keystream overwrites it and the plaintext is XORed in; otherwise only the
first `plaintext_block.length` destination bytes are written.  The function
returns the destination chunks as they stand at return together with the
loop result, so that partially written destinations on failure are visible. -/
def encryptLoop (ic : Nat) (s : InternalState) (idx : Nat) :
    List (List Nat) → List (List Nat) → List (List Nat) × Res Unit
  | [], ds => (ds, .ok ())
  | _ :: _, [] => ([], .ok ())
  | p :: ps, d :: ds =>
    if 4294967296 ≤ ic + idx % 4294967296 then (d :: ds, .error .crypto)
    else
      match process_block s (some (ic + idx % 4294967296)) with
      | .error e => (d :: ds, .error e)
      | .ok (ksState, s1) =>
        match serialize_block s1 ksState 64 with
        | .error e => (d :: ds, .error e)
        | .ok ks =>
          let d1 :=
            if d.length = 64 then List.zipWith xorb ks p ++ ks.drop p.length
            else List.zipWith xorb ks p ++ d.drop p.length
          let rest := encryptLoop ic s1 (idx + 1) ps ds
          (d1 :: rest.1, rest.2)

/-- encryptFull embeds `chacha20::encrypt`: the destination-length and
empty-plaintext checks, state initialization, and the chunk loop.  It
returns the full destination buffer as it stands at return (so partial
writes before a failure are visible) together with the result. -/
def encryptFull (secret_key nonce : List Nat) (initial_counter : Nat)
    (plaintext dst_out : List Nat) : List Nat × Res Unit :=
  if dst_out.length < plaintext.length then (dst_out, .error .crypto)
  else if plaintext = [] then (dst_out, .error .crypto)
  else
    match chachaInit secret_key nonce true with
    | .error e => (dst_out, .error e)
    | .ok s =>
      let r := encryptLoop initial_counter s 0 (chunks64 plaintext) (chunks64 dst_out)
      (r.1.flatten, r.2)

/-- chacha20_encrypt is `chacha20::encrypt` viewed as returning the
ciphertext (the final destination buffer) on success. -/
def chacha20_encrypt (secret_key nonce : List Nat) (initial_counter : Nat)
    (plaintext dst_out : List Nat) : Res (List Nat) :=
  match encryptFull secret_key nonce initial_counter plaintext dst_out with
  | (d, .ok ()) => .ok d
  | (_, .error e) => .error e

/-- chacha20_decrypt embeds `chacha20::decrypt`, which simply calls
`encrypt` on the ciphertext. -/
def chacha20_decrypt (secret_key nonce : List Nat) (initial_counter : Nat)
    (ciphertext dst_out : List Nat) : Res (List Nat) :=
  chacha20_encrypt secret_key nonce initial_counter ciphertext dst_out

/-- Modelled from the spec: `chacha20::encrypt_in_place`, used by the
secret-stream construction but absent from the provided sources.  It is the
in-place variant of `encrypt` (section 4.2): the buffer serves as both
plaintext and destination, so the result is the ciphertext of the buffer. -/
def chacha20_encrypt_in_place (secret_key nonce : List Nat)
    (initial_counter : Nat) (buf : List Nat) : Res (List Nat) :=
  chacha20_encrypt secret_key nonce initial_counter buf buf

/-- Modelled from the spec: the external Poly1305 one-time-MAC collaborator
(sections 1 and 6: `init(one_time_key[32]) -> context`, `update(context,
bytes)`, `finalize(context) -> tag[16]`), implemented by the published
Poly1305 algorithm of RFC 8439 that the spec names.  The context records the
clamped `r`, the secret `s`, and the bytes fed so far. -/
structure Poly1305Ctx where
  r : Nat
  s : Nat
  data : List Nat
deriving DecidableEq, Repr

/-- poly1305_init models the collaborator's `init`: `r` is the first 16 key
bytes little-endian, clamped; `s` is the last 16 key bytes little-endian. -/
def poly1305_init (key : List Nat) : Poly1305Ctx :=
  { r := leBytesToNat (key.take 16) &&& 0x0ffffffc0ffffffc0ffffffc0fffffff,
    s := leBytesToNat ((key.drop 16).take 16),
    data := [] }

/-- poly1305_update models the collaborator's `update`: the MAC is taken
over the concatenation of all updated byte strings. -/
def poly1305_update (c : Poly1305Ctx) (bytes : List Nat) : Poly1305Ctx :=
  { c with data := c.data ++ bytes }

/-- poly1305_finalize models the collaborator's `finalize`: the accumulated
bytes are processed in 16-byte blocks (each block read little-endian with a
high 0x01 byte appended) over GF(2^130 - 5), and the 16-byte tag is
`(acc + s) mod 2^128` little-endian. -/
def poly1305_finalize (c : Poly1305Ctx) : List Nat :=
  let acc := (chunksBy 15 c.data).foldl
    (fun acc b => ((acc + leBytesToNat b + 2 ^ (8 * b.length)) * c.r) % (2 ^ 130 - 5)) 0
  natToLeBytes 16 ((acc + c.s) % 2 ^ 128)

/-- xchacha_subkey is the XChaCha20 subkey derivation of section 4.3: the
HChaCha20 of the key and the 16-byte prefix of the 24-byte nonce. -/
def xchacha_subkey (secret_key nonce24 : List Nat) : Res (List Nat) :=
  hchacha20 secret_key (nonce24.take 16)

/-- xchacha_ietf_nonce is the IETF-nonce construction of section 4.3: four
zero bytes followed by the 8-byte suffix of the 24-byte nonce. -/
def xchacha_ietf_nonce (nonce24 : List Nat) : List Nat :=
  [0, 0, 0, 0] ++ nonce24.drop 16

/-- aeadMacData is the Poly1305 input of the one-shot AEAD with no
associated data: ciphertext, zero padding to a 16-byte boundary, then the
8-byte little-endian lengths of the associated data (0) and ciphertext,
matching the standard construction the spec names in section 4.4. -/
def aeadMacData (ct : List Nat) : List Nat :=
  ct ++ List.replicate ((16 - ct.length % 16) % 16) 0
    ++ natToLeBytes 8 0 ++ natToLeBytes 8 ct.length

/-- Modelled from the spec: `hazardous::aead::xchacha20poly1305::seal`
(section 4.4), absent from the provided sources.  Derives the XChaCha20
subkey and IETF nonce (4.3), reserves keystream block 0 for the one-time
Poly1305 key (its first 32 bytes), encrypts the plaintext starting at
counter 1, MACs the ciphertext and returns `ciphertext ∥ tag(16)`. -/
def aead_hazardous_seal (secret_key nonce24 plaintext : List Nat) :
    Res (List Nat) :=
  match xchacha_subkey secret_key nonce24 with
  | .error e => .error e
  | .ok subkey =>
    match keystream_block subkey (xchacha_ietf_nonce nonce24) 0 with
    | .error e => .error e
    | .ok block0 =>
      match chacha20_encrypt subkey (xchacha_ietf_nonce nonce24) 1 plaintext
          (List.replicate plaintext.length 0) with
      | .error e => .error e
      | .ok ct =>
        let mac := poly1305_finalize
          (poly1305_update (poly1305_init (block0.take 32)) (aeadMacData ct))
        .ok (ct ++ mac)

/-- Modelled from the spec: `hazardous::aead::xchacha20poly1305::open`
(section 4.4), absent from the provided sources.  Splits the input into
ciphertext and 16-byte tag, recomputes the tag exactly as `seal` does, and
compares; on mismatch it returns only the opaque error, otherwise it
decrypts the ciphertext starting at counter 1. -/
def aead_hazardous_open (secret_key nonce24 ct_with_tag : List Nat) :
    Res (List Nat) :=
  if ct_with_tag.length < 16 then .error .crypto
  else
    let ct := ct_with_tag.take (ct_with_tag.length - 16)
    let tag := ct_with_tag.drop (ct_with_tag.length - 16)
    match xchacha_subkey secret_key nonce24 with
    | .error e => .error e
    | .ok subkey =>
      match keystream_block subkey (xchacha_ietf_nonce nonce24) 0 with
      | .error e => .error e
      | .ok block0 =>
        let mac := poly1305_finalize
          (poly1305_update (poly1305_init (block0.take 32)) (aeadMacData ct))
        if mac ≠ tag then .error .crypto
        else
          chacha20_decrypt subkey (xchacha_ietf_nonce nonce24) 1 ct
            (List.replicate ct.length 0)

/-- aead_seal embeds `aead::seal` from src/aead.rs.  The randomly generated
24-byte nonce is passed explicitly (the RNG is an external collaborator).
The source calls `.unwrap()` on the inner seal, so an inner failure is a
panic, not an error return. -/
def aead_seal (secret_key nonce24 plaintext : List Nat) : Res (List Nat) :=
  if plaintext = [] then .error .crypto
  else
    match aead_hazardous_seal secret_key nonce24 plaintext with
    | .ok ct_tag => .ok (nonce24 ++ ct_tag)
    | .error _ => .error .panic

/-- aead_open embeds `aead::open` from src/aead.rs: inputs shorter than
24 + 16 + 1 bytes are rejected with the opaque error; otherwise the inner
open runs on the 24-byte nonce prefix and the rest, and the source calls
`.unwrap()` on its result, so an inner failure (including an
authentication-tag mismatch) is a panic, not an error return. -/
def aead_open (secret_key input : List Nat) : Res (List Nat) :=
  if input.length < 41 then .error .crypto
  else
    match aead_hazardous_open secret_key (input.take 24) (input.drop 24) with
    | .ok pt => .ok pt
    | .error _ => .error .panic

/-- Tag constants of the secret stream (`bitflags` in the source):
MESSAGE = 0, PUSH = 1, REKEY = 2, FINISH = PUSH | REKEY = 3. -/
def tagMESSAGE : Nat := 0

/-- tagPUSH is the PUSH tag bit. -/
def tagPUSH : Nat := 1

/-- tagREKEY is the REKEY tag bit. -/
def tagREKEY : Nat := 2

/-- tagFINISH is PUSH | REKEY. -/
def tagFINISH : Nat := 3

/-- tagFromBits embeds `Tag::from_bits`: a byte decodes iff it contains no
bits outside PUSH | REKEY, i.e. iff it is below 4. -/
def tagFromBits (b : Nat) : Option Nat := if b < 4 then some b else none

/-- SecretStreamState embeds `SecretStreamXChaCha20Poly1305`: the 32-byte
derived subkey, the 4-byte message counter, and the 8-byte nonce
remainder. -/
structure SecretStreamState where
  key : List Nat
  counter : Nat
  r_nonce : List Nat
deriving DecidableEq, Repr

/-- ss_get_nonce embeds `get_nonce`: 4-byte little-endian counter followed
by the nonce remainder. -/
def ss_get_nonce (s : SecretStreamState) : List Nat :=
  natToLeBytes 4 s.counter ++ s.r_nonce

/-- ss_new embeds `SecretStreamXChaCha20Poly1305::new`: the subkey is
`hchacha20(key, nonce[..16]).unwrap()` (an inner failure would be a panic),
the counter starts at 1, and the nonce remainder is `nonce[16..]`. -/
def ss_new (key nonce24 : List Nat) : Res SecretStreamState :=
  match hchacha20 key (nonce24.take 16) with
  | .error _ => .error .panic
  | .ok subkey => .ok { key := subkey, counter := 1, r_nonce := nonce24.drop 16 }

/-- ss_init embeds `init`, which replaces the whole state by `new`. -/
def ss_init (_s : SecretStreamState) (key nonce24 : List Nat) :
    Res SecretStreamState :=
  ss_new key nonce24

/-- ss_rekey embeds `rekey`: encrypt `key ∥ r_nonce` in place at counter 0
under the current key and nonce, split the result back into the new key and
nonce remainder, and reset the counter to 1. -/
def ss_rekey (s : SecretStreamState) : Res SecretStreamState :=
  match chacha20_encrypt_in_place s.key (ss_get_nonce s) 0
      (s.key.take 32 ++ s.r_nonce) with
  | .error e => .error e
  | .ok out => .ok { key := out.take 32, counter := 1, r_nonce := out.drop 32 }

/-- padLenA is the first padding length of push/pull:
`pad[..(16usize.wrapping_sub(adlen) & 15)]`. -/
def padLenA (adlen : Nat) : Nat :=
  ((16 + (18446744073709551616 - adlen % 18446744073709551616))
    % 18446744073709551616) % 16

/-- padLenB is the second padding length of push/pull:
`pad[..((16usize.wrapping_sub(64).wrapping_add(msglen)) & 15)]`. -/
def padLenB (msglen : Nat) : Nat :=
  ((18446744073709551568 + msglen % 18446744073709551616)
    % 18446744073709551616) % 16

/-- ss_block0 is the keystream block at counter 0 used to derive the
one-time Poly1305 key: `chacha20_enc_in_place(key, nonce, 0, [0u8; 64])`. -/
def ss_block0 (s : SecretStreamState) : Res (List Nat) :=
  chacha20_encrypt_in_place s.key (ss_get_nonce s) 0 (List.replicate 64 0)

/-- ss_block1 is the encryption at counter 1 of a zero block whose first
byte is `b`: the tag-binding block of push/pull. -/
def ss_block1 (s : SecretStreamState) (b : Nat) : Res (List Nat) :=
  chacha20_encrypt_in_place s.key (ss_get_nonce s) 1 (b :: List.replicate 63 0)

/-- ss_push embeds `SecretStreamXChaCha20Poly1305::push`.  It returns the
state as it stands at return, the destination buffer as it stands at return,
and the result.  The plaintext ciphertext is written at offset 1 and the
16-byte MAC at `macpos = 1 + msglen`; afterwards the nonce remainder is
XORed with the first 8 MAC bytes, the counter is incremented with wrapping,
and `rekey` runs iff the tag byte equals REKEY or the counter wrapped
to 0. -/
def ss_push (s : SecretStreamState) (plaintext : List Nat)
    (ad : Option (List Nat)) (dst_out : List Nat) (tag : Nat) :
    SecretStreamState × List Nat × Res Unit :=
  let adlen := (ad.getD []).length
  let msglen := plaintext.length
  let macpos := 1 + msglen
  if dst_out.length < 17 + msglen then (s, dst_out, .error .crypto)
  else
    match ss_block0 s with
    | .error e => (s, dst_out, .error e)
    | .ok block0 =>
      let poly := poly1305_init (block0.take 32)
      let poly := if adlen > 0 then poly1305_update poly (ad.getD []) else poly
      let poly := poly1305_update poly (List.replicate (padLenA adlen) 0)
      match ss_block1 s tag with
      | .error e => (s, dst_out, .error e)
      | .ok block1 =>
        let poly := poly1305_update poly block1
        let dst1 := dst_out.set 0 (block1.getD 0 0)
        match encryptFull s.key (ss_get_nonce s) 2 plaintext (dst1.drop 1) with
        | (dpart, .error e) => (s, dst1.take 1 ++ dpart, .error e)
        | (dpart, .ok ()) =>
          let dst2 := dst1.take 1 ++ dpart
          let poly := poly1305_update poly ((dst2.drop 1).take msglen)
          let poly := poly1305_update poly (List.replicate (padLenB msglen) 0)
          let poly := poly1305_update poly (natToLeBytes 8 adlen)
          let poly := poly1305_update poly (natToLeBytes 8 (64 + msglen))
          let mac := poly1305_finalize poly
          let dst3 := dst2.take macpos ++ mac ++ dst2.drop (macpos + 16)
          let s1 : SecretStreamState :=
            { key := s.key,
              counter := (s.counter + 1) % 4294967296,
              r_nonce := List.zipWith xorb s.r_nonce (mac.take 8) }
          if tag = tagREKEY ∨ (s.counter + 1) % 4294967296 = 0 then
            match ss_rekey s1 with
            | .error e => (s1, dst3, .error e)
            | .ok s2 => (s2, dst3, .ok ())
          else (s1, dst3, .ok ())

/-- ss_pull_mac is the Poly1305 MAC that `pull` recomputes over its input:
the one-time key comes from the counter-0 block, the associated data and its
padding are fed first, then the tag-binding block with the wire tag byte
substituted back at position 0, the wire ciphertext, its padding, and the
two 8-byte little-endian lengths. -/
def ss_pull_mac (s : SecretStreamState) (cipher : List Nat)
    (ad : Option (List Nat)) : Res (List Nat) :=
  let adlen := (ad.getD []).length
  let msglen := cipher.length - 17
  match ss_block0 s with
  | .error e => .error e
  | .ok block0 =>
    match ss_block1 s (cipher.getD 0 0) with
    | .error e => .error e
    | .ok block1 =>
      let poly := poly1305_init (block0.take 32)
      let poly := if adlen > 0 then poly1305_update poly (ad.getD []) else poly
      let poly := poly1305_update poly (List.replicate (padLenA adlen) 0)
      let poly := poly1305_update poly (block1.set 0 (cipher.getD 0 0))
      let poly := poly1305_update poly ((cipher.drop 1).take msglen)
      let poly := poly1305_update poly (List.replicate (padLenB msglen) 0)
      let poly := poly1305_update poly (natToLeBytes 8 adlen)
      let poly := poly1305_update poly (natToLeBytes 8 (64 + msglen))
      .ok (poly1305_finalize poly)

/-- ss_pull embeds `SecretStreamXChaCha20Poly1305::pull`.  Inputs shorter
than 17 bytes are rejected; the recomputed MAC (`ss_pull_mac`, a pure
refactoring of the interleaved Poly1305 updates of the source, which cannot
fail between the two keystream-block encryptions) is compared against the
16 wire MAC bytes before any plaintext is produced or any state mutated.
It returns the state as it stands at return, the plaintext buffer as it
stands at return, and on success the decoded tag. -/
def ss_pull (s : SecretStreamState) (cipher : List Nat)
    (ad : Option (List Nat)) (plaintext_out : List Nat) :
    SecretStreamState × List Nat × Res Nat :=
  if cipher.length < 17 then (s, plaintext_out, .error .crypto)
  else
    let msglen := cipher.length - 17
    let macpos := 1 + msglen
    if plaintext_out.length < msglen then (s, plaintext_out, .error .crypto)
    else
      match ss_block0 s with
      | .error e => (s, plaintext_out, .error e)
      | .ok _block0 =>
        match ss_block1 s (cipher.getD 0 0) with
        | .error e => (s, plaintext_out, .error e)
        | .ok block1 =>
          match tagFromBits (block1.getD 0 0) with
          | none => (s, plaintext_out, .error .crypto)
          | some tag =>
            match ss_pull_mac s cipher ad with
            | .error e => (s, plaintext_out, .error e)
            | .ok mac =>
              if mac ≠ (cipher.drop macpos).take 16 then
                (s, plaintext_out, .error .crypto)
              else
                match encryptFull s.key (ss_get_nonce s) 2
                    ((cipher.drop 1).take msglen) plaintext_out with
                | (buf, .error e) => (s, buf, .error e)
                | (buf, .ok ()) =>
                  let s1 : SecretStreamState :=
                    { key := s.key,
                      counter := (s.counter + 1) % 4294967296,
                      r_nonce := List.zipWith xorb s.r_nonce (mac.take 8) }
                  if tag = tagREKEY ∨ (s.counter + 1) % 4294967296 = 0 then
                    match ss_rekey s1 with
                    | .error e => (s1, buf, .error e)
                    | .ok s2 => (s2, buf, .ok tag)
                  else (s1, buf, .ok tag)

/-! Derived definitions used by the lemmas and theorems below: alignment of
chunked buffers, per-iteration predicates of the encrypt loop, the
reachability predicate of secret-stream session states, and the concrete
payloads and states of the evaluated instances. -/

/-- Aligned relates a chunked plaintext to a chunked destination of equal
length: same chunk count, pointwise equal chunk lengths, chunks at most 64
bytes. -/
inductive Aligned : List (List Nat) → List (List Nat) → Prop where
  | nil : Aligned [] []
  | cons : ∀ (p d : List Nat) (ps ds : List (List Nat)),
      p.length = d.length → p.length ≤ 64 → Aligned ps ds →
      Aligned (p :: ps) (d :: ds)

/-- stepOK states that loop iteration m neither trips the
`initial_counter.checked_add(counter as u32)` overflow check nor exhausts the
engine's internal invocation counter. -/
def stepOK (ic m : Nat) : Prop :=
  ic + m % 4294967296 < 4294967296 ∧ m + 1 < 4294967296

instance (ic m : Nat) : Decidable (stepOK ic m) := by
  unfold stepOK
  infer_instance

/-- ietfKS is the serialized keystream block the loop produces at block
counter bc from engine state s (the formula of `process_block` followed by
`serialize_block` in IETF mode). -/
def ietfKS (s : InternalState) (bc : Nat) : List Nat :=
  storeWordsLE (List.zipWith wadd (tenRounds (s.state.set 12 bc))
    (s.state.set 12 bc))

/-- nextState is the engine state after one `process_block` call in IETF
mode at block counter bc. -/
def nextState (s : InternalState) (bc : Nat) : InternalState :=
  ⟨s.state.set 12 bc, s.internal_counter + 1, true⟩

/-- c1Payload is the payload `aead::seal` produces for the all-zero 32-byte
key, the all-zero 24-byte nonce, and the 1-byte plaintext [97]. -/
def c1Payload : List Nat :=
  List.replicate 24 0 ++
    [25, 132, 31, 76, 136, 102, 239, 171, 108, 107, 83, 41, 174, 249, 227,
     103, 82]

/-- SSReach is the set of session states reachable by any sequence of
successful new/init/push/pull/rekey operations (new and init require the
typed 32-byte key and 24-byte nonce only through their success). -/
inductive SSReach : SecretStreamState → Prop where
  | of_new : ∀ (key nonce24 : List Nat) (s : SecretStreamState),
      ss_new key nonce24 = .ok s → SSReach s
  | of_init : ∀ (s0 : SecretStreamState) (key nonce24 : List Nat)
      (s : SecretStreamState), ss_init s0 key nonce24 = .ok s → SSReach s
  | of_rekey : ∀ (s s1 : SecretStreamState), SSReach s →
      ss_rekey s = .ok s1 → SSReach s1
  | of_push : ∀ (s : SecretStreamState) (pt : List Nat)
      (ad : Option (List Nat)) (dst : List Nat) (tag : Nat)
      (s1 : SecretStreamState) (out : List Nat), SSReach s →
      ss_push s pt ad dst tag = (s1, out, .ok ()) → SSReach s1
  | of_pull : ∀ (s : SecretStreamState) (cipher : List Nat)
      (ad : Option (List Nat)) (pt_out : List Nat) (s1 : SecretStreamState)
      (out : List Nat) (t : Nat), SSReach s →
      ss_pull s cipher ad pt_out = (s1, out, .ok t) → SSReach s1

/-- ssZeroState is the session state produced by `new` with the all-zero
32-byte key and all-zero 24-byte nonce (its subkey is the HChaCha20 test
value 1140704c…ee6586). -/
def ssZeroState : SecretStreamState :=
  ⟨[17, 64, 112, 76, 50, 141, 29, 93, 14, 48, 8, 108, 223, 32, 157, 189,
    106, 67, 184, 244, 21, 24, 161, 28, 195, 135, 182, 105, 178, 238, 101,
    134], 1, List.replicate 8 0⟩

/-- c6Mac is the MAC `pull` recomputes over a 17-zero-byte input in the
all-zero-key session. -/
def c6Mac : List Nat :=
  [115, 11, 6, 238, 131, 45, 240, 141, 18, 127, 192, 183, 100, 234, 218, 185]

/-- c8Payload is a 17-byte secret-stream payload carrying a valid MAC for
the empty MESSAGE in the all-zero-key session: its first byte is the
encrypted MESSAGE tag and the remaining 16 bytes are the matching MAC. -/
def c8Payload : List Nat :=
  [93, 165, 14, 231, 112, 104, 36, 107, 36, 153, 206, 157, 252, 77, 210,
   77, 222]

/-- c4Payload is the 21-byte payload the first zero-key secret-stream push
of plaintext 1234 produces (the fixed test vector
5d1c4d54eb1738c2e8527f54f7b9bf46bcacc95f18). -/
def c4Payload : List Nat :=
  [93, 28, 77, 84, 235, 23, 56, 194, 232, 82, 127, 84, 247, 185, 191, 70,
   188, 172, 201, 95, 24]

/-! Basic length and chunking lemmas about the embedding. -/

theorem natToLeBytes_length (n v : Nat) : (natToLeBytes n v).length = n := by
  induction n generalizing v with
  | zero => rfl
  | succ m ih => simp [natToLeBytes, ih]

theorem storeWordLE_length (w : Nat) : (storeWordLE w).length = 4 := by
  simp [storeWordLE, natToLeBytes_length]

theorem storeWordsLE_length (ws : List Nat) :
    (storeWordsLE ws).length = 4 * ws.length := by
  induction ws with
  | nil => rfl
  | cons w ws ih =>
    simp [storeWordsLE, List.flatten_cons, storeWordLE_length] at *
    omega

theorem chunksByAux_congr (m : Nat) : ∀ (f1 f2 : Nat) (l : List Nat),
    l.length ≤ f1 → l.length ≤ f2 → chunksByAux m f1 l = chunksByAux m f2 l := by
  intro f1
  induction f1 with
  | zero =>
    intro f2 l h1 h2
    have hl : l = [] := by cases l <;> simp_all
    subst hl
    cases f2 <;> rfl
  | succ f ih =>
    intro f2 l h1 h2
    cases l with
    | nil => cases f2 <;> rfl
    | cons a as =>
      cases f2 with
      | zero => simp at h2
      | succ g =>
        simp only [chunksByAux]
        congr 1
        apply ih
        · simp only [List.length_drop, List.length_cons] at *
          omega
        · simp only [List.length_drop, List.length_cons] at *
          omega

theorem chunksBy_nil (m : Nat) : chunksBy m [] = [] := rfl

theorem chunksBy_of_ne_nil (m : Nat) (l : List Nat) (h : l ≠ []) :
    chunksBy m l = l.take (m + 1) :: chunksBy m (l.drop (m + 1)) := by
  cases l with
  | nil => exact absurd rfl h
  | cons a as =>
    show chunksByAux m (as.length + 1) (a :: as) = _
    simp only [chunksByAux]
    congr 1
    apply chunksByAux_congr
    · simp only [List.length_drop, List.length_cons]
      omega
    · simp only [chunksBy, List.length_drop]
      omega

theorem chunksBy_ind (m : Nat) (P : List Nat → Prop) (h0 : P [])
    (hstep : ∀ l, l ≠ [] → P (l.drop (m + 1)) → P l) : ∀ l, P l := by
  have key : ∀ (n : Nat) (l : List Nat), l.length ≤ n → P l := by
    intro n
    induction n with
    | zero =>
      intro l h
      have hl : l = [] := by cases l <;> simp_all
      subst hl
      exact h0
    | succ k ih =>
      intro l h
      by_cases hl : l = []
      · subst hl
        exact h0
      · apply hstep l hl
        apply ih
        have hpos : 0 < l.length := List.length_pos.mpr hl
        simp only [List.length_drop]
        omega
  intro l
  exact key l.length l (le_refl _)

theorem chunksBy_length (m : Nat) (l : List Nat) :
    (chunksBy m l).length = (l.length + m) / (m + 1) := by
  induction l using chunksBy_ind m with
  | h0 => simp [chunksBy_nil, Nat.div_eq_of_lt, Nat.lt_succ_self]
  | hstep l hne ih =>
    rw [chunksBy_of_ne_nil m l hne]
    simp only [List.length_cons, ih, List.length_drop]
    rcases Nat.lt_or_ge l.length (m + 1) with hlt | hge
    · have h0 : l.length - (m + 1) = 0 := by omega
      have h1 : 1 ≤ l.length := by
        cases l with
        | nil => exact absurd rfl hne
        | cons a as => simp
      rw [h0]
      have : (l.length + m) / (m + 1) = 1 := by
        apply Nat.div_eq_of_lt_le <;> omega
      simp [Nat.div_eq_of_lt, Nat.lt_succ_self, this]
    · have : l.length - (m + 1) + m + (m + 1) = l.length + m := by omega
      rw [← Nat.add_div_right (l.length - (m + 1) + m) (Nat.succ_pos m)]
      rw [Nat.add_comm ((l.length - (m + 1) + m)) (m + 1)]
      rw [Nat.add_comm (m + 1) (l.length - (m + 1) + m), this]

theorem chunksBy_flatten (m : Nat) (l : List Nat) :
    (chunksBy m l).flatten = l := by
  induction l using chunksBy_ind m with
  | h0 => simp [chunksBy_nil]
  | hstep l hne ih =>
    rw [chunksBy_of_ne_nil m l hne]
    simp [ih]

theorem chunks64_flatten (l : List Nat) : (chunks64 l).flatten = l :=
  chunksBy_flatten 63 l

theorem chunks64_length (l : List Nat) :
    (chunks64 l).length = (l.length + 63) / 64 :=
  chunksBy_length 63 l

theorem chunks64_ne_nil (l : List Nat) (h : l ≠ []) : chunks64 l ≠ [] := by
  rw [chunks64, chunksBy_of_ne_nil 63 l h]
  simp

theorem quarter_round_length (st : List Nat) (x y z w : Nat) :
    (quarter_round st x y z w).length = st.length := by
  simp [quarter_round, List.length_set]

theorem process_inner_block_length (st : List Nat) :
    (process_inner_block st).length = st.length := by
  simp [process_inner_block, quarter_round_length]

theorem iterInner_length (n : Nat) (st : List Nat) :
    (iterInner n st).length = st.length := by
  induction n generalizing st with
  | zero => rfl
  | succ m ih => simp [iterInner, ih, process_inner_block_length]

theorem tenRounds_length (st : List Nat) :
    (tenRounds st).length = st.length := by
  simp [tenRounds, iterInner_length]

theorem loadWordsLE_length (b : List Nat) :
    (loadWordsLE b).length = (b.length + 3) / 4 := by
  simp [loadWordsLE, chunksBy_length]

/-! Structural lemmas about the block engine. -/

theorem chachaInit_ietf_props (key nonce : List Nat) (hk : key.length = 32)
    (hn : nonce.length = 12) :
    ∃ s, chachaInit key nonce true = .ok s ∧ s.state.length = 16 ∧
      s.is_ietf = true ∧ s.internal_counter = 0 := by
  refine ⟨InternalState.mk ([0x61707865, 0x3320646e, 0x79622d32, 0x6b206574]
      ++ loadWordsLE key ++ (0 :: loadWordsLE nonce)) 0 true, ?_, ?_, rfl, rfl⟩
  · simp [chachaInit, hk, hn]
  · simp [loadWordsLE_length, hk, hn]

theorem chachaInit_hchacha_props (key nonce : List Nat) (hk : key.length = 32)
    (hn : nonce.length = 16) :
    ∃ s, chachaInit key nonce false = .ok s ∧ s.state.length = 16 ∧
      s.is_ietf = false ∧ s.internal_counter = 0 := by
  refine ⟨InternalState.mk ([0x61707865, 0x3320646e, 0x79622d32, 0x6b206574]
      ++ loadWordsLE key ++ loadWordsLE nonce) 0 false, ?_, ?_, rfl, rfl⟩
  · simp [chachaInit, hk, hn]
  · simp [loadWordsLE_length, hk, hn]

theorem process_block_ietf (s : InternalState) (bc : Nat)
    (hietf : s.is_ietf = true) (hc : s.internal_counter + 1 < 4294967296) :
    process_block s (some bc) =
      .ok (List.zipWith wadd (tenRounds (s.state.set 12 bc)) (s.state.set 12 bc),
        { state := s.state.set 12 bc,
          internal_counter := s.internal_counter + 1, is_ietf := true }) := by
  have hlt : ¬ (4294967296 ≤ s.internal_counter + 1) := by omega
  simp [process_block, hietf, hlt]

theorem ietf_ks_length (st : List Nat) (bc : Nat) :
    (List.zipWith wadd (tenRounds (st.set 12 bc)) (st.set 12 bc)).length
      = st.length := by
  simp [List.length_zipWith, tenRounds_length, List.length_set]

theorem serialize_block_ietf (s : InternalState) (hietf : s.is_ietf = true)
    (src : List Nat) : serialize_block s src 64 = .ok (storeWordsLE src) := by
  simp [serialize_block, hietf]

theorem hchacha20_ok (key nonce : List Nat) (hk : key.length = 32)
    (hn : nonce.length = 16) :
    ∃ out, hchacha20 key nonce = .ok out ∧ out.length = 32 := by
  obtain ⟨s, hs, hlen, hiet, hcnt⟩ := chachaInit_hchacha_props key nonce hk hn
  have hpb : process_block s none =
      .ok (tenRounds s.state,
        { state := s.state, internal_counter := s.internal_counter + 1,
          is_ietf := false }) := by
    have hlt : ¬ (4294967296 ≤ s.internal_counter + 1) := by omega
    simp [process_block, hiet, hlt]
  refine ⟨storeWordsLE ((tenRounds s.state).take 4
    ++ ((tenRounds s.state).drop 12).take 4), ?_, ?_⟩
  · simp only [hchacha20, hs, hpb]
    simp [serialize_block, hiet]
  · have h1 : ((tenRounds s.state).take 4).length = 4 := by
      simp [List.length_take, tenRounds_length, hlen]
    have h2 : (((tenRounds s.state).drop 12).take 4).length = 4 := by
      simp [List.length_take, List.length_drop, tenRounds_length, hlen]
    rw [storeWordsLE_length]
    simp only [List.length_append, h1, h2]

theorem keystream_block_ok (key nonce : List Nat) (hk : key.length = 32)
    (hn : nonce.length = 12) (c : Nat) :
    ∃ out, keystream_block key nonce c = .ok out ∧ out.length = 64 := by
  obtain ⟨s, hs, hlen, hiet, hcnt⟩ := chachaInit_ietf_props key nonce hk hn
  have hpb := process_block_ietf s c hiet (by omega)
  refine ⟨storeWordsLE (List.zipWith wadd (tenRounds (s.state.set 12 c))
    (s.state.set 12 c)), ?_, ?_⟩
  · simp only [keystream_block, hs, hpb]
    exact serialize_block_ietf _ rfl _
  · rw [storeWordsLE_length, ietf_ks_length, hlen]

theorem process_block_panic (s : InternalState) (bc : Nat)
    (hietf : s.is_ietf = true) (hc : 4294967296 ≤ s.internal_counter + 1) :
    process_block s (some bc) = .error .panic := by
  simp [process_block, hietf, hc]

theorem chachaInit_ietf_inv (key nonce : List Nat) (s : InternalState)
    (h : chachaInit key nonce true = .ok s) :
    key.length = 32 ∧ nonce.length = 12 ∧ s.state.length = 16 ∧
      s.is_ietf = true ∧ s.internal_counter = 0 := by
  by_cases hn : nonce.length = 12
  · by_cases hk : key.length = 32
    · obtain ⟨s2, hs2, h16, hi, hc⟩ := chachaInit_ietf_props key nonce hk hn
      rw [hs2] at h
      cases h
      exact ⟨hk, hn, h16, hi, hc⟩
    · simp [chachaInit, hn, hk] at h
  · simp [chachaInit, hn] at h

theorem chachaInit_hchacha_inv (key nonce : List Nat) (s : InternalState)
    (h : chachaInit key nonce false = .ok s) :
    key.length = 32 ∧ nonce.length = 16 ∧ s.state.length = 16 ∧
      s.is_ietf = false ∧ s.internal_counter = 0 := by
  by_cases hn : nonce.length = 16
  · by_cases hk : key.length = 32
    · obtain ⟨s2, hs2, h16, hi, hc⟩ := chachaInit_hchacha_props key nonce hk hn
      rw [hs2] at h
      cases h
      exact ⟨hk, hn, h16, hi, hc⟩
    · simp [chachaInit, hn, hk] at h
  · simp [chachaInit, hn] at h

theorem hchacha20_ok_inv (key nonce out : List Nat)
    (h : hchacha20 key nonce = .ok out) :
    out.length = 32 ∧ key.length = 32 ∧ nonce.length = 16 := by
  cases hs : chachaInit key nonce false with
  | ok s =>
    obtain ⟨hk, hn, h16, hi, hc⟩ := chachaInit_hchacha_inv key nonce s hs
    obtain ⟨out2, hout2, hlen2⟩ := hchacha20_ok key nonce hk hn
    rw [hout2] at h
    cases h
    exact ⟨hlen2, hk, hn⟩
  | error e =>
    rw [hchacha20, hs] at h
    simp at h

/-! Alignment of chunked plaintext and destination buffers, and the main
lemmas about the encrypt loop. -/

theorem aligned_chunks64 (a : List Nat) :
    ∀ b : List Nat, a.length = b.length →
      Aligned (chunks64 a) (chunks64 b) := by
  induction a using chunksBy_ind 63 with
  | h0 =>
    intro b h
    have hb : b = [] := by cases b <;> simp_all
    subst hb
    simp only [chunks64, chunksBy_nil]
    exact .nil
  | hstep a hne ih =>
    intro b h
    have ha1 : 0 < a.length := List.length_pos.mpr hne
    have hb : b ≠ [] := by
      intro hb
      subst hb
      simp only [List.length_nil] at h
      omega
    simp only [chunks64] at *
    rw [chunksBy_of_ne_nil 63 a hne, chunksBy_of_ne_nil 63 b hb]
    refine .cons _ _ _ _ ?_ ?_ (ih (b.drop (63 + 1)) ?_)
    · simp [List.length_take, h]
    · simp [List.length_take]
    · simp [List.length_drop, h]

theorem aligned_flatten_length (ps cs : List (List Nat))
    (h : Aligned ps cs) : ps.flatten.length = cs.flatten.length := by
  induction h with
  | nil => rfl
  | cons p d ps ds hl h64 hrec ih => simp [List.flatten_cons, hl, ih]

theorem aligned_length (ps cs : List (List Nat)) (h : Aligned ps cs) :
    ps.length = cs.length := by
  induction h with
  | nil => rfl
  | cons p d ps ds hl h64 hrec ih => simp [ih]

theorem chunks64_flatten_eq (a : List Nat) :
    ∀ cs : List (List Nat), Aligned (chunks64 a) cs →
      chunks64 cs.flatten = cs := by
  induction a using chunksBy_ind 63 with
  | h0 =>
    intro cs h
    simp only [chunks64, chunksBy_nil] at h
    cases h
    simp [chunks64, chunksBy_nil]
  | hstep a hne ih =>
    intro cs h
    have ha1 : 0 < a.length := List.length_pos.mpr hne
    simp only [chunks64] at *
    rw [chunksBy_of_ne_nil 63 a hne] at h
    cases h with
    | cons _ c _ cs hl h64 hrest =>
      have hc : c.length = min 64 a.length := by
        simp [List.length_take] at hl
        omega
      rcases le_or_lt a.length 64 with hle | hgt
      · have hdrop : a.drop (63 + 1) = [] := by
          apply List.drop_eq_nil_of_le
          omega
        rw [hdrop, chunksBy_nil] at hrest
        cases hrest
        have hcne : c ≠ [] := by
          intro hcnil
          subst hcnil
          simp at hc
          omega
        simp only [List.flatten_cons, List.flatten_nil, List.append_nil]
        rw [chunksBy_of_ne_nil 63 c hcne]
        have h1 : c.take (63 + 1) = c := List.take_of_length_le (by omega)
        have h2 : c.drop (63 + 1) = [] := List.drop_eq_nil_of_le (by omega)
        rw [h1, h2, chunksBy_nil]
      · have hc64 : c.length = 64 := by omega
        simp only [List.flatten_cons]
        have hne2 : c ++ cs.flatten ≠ [] := by
          intro hcon
          have := congrArg List.length hcon
          simp [hc64] at this
        rw [chunksBy_of_ne_nil 63 _ hne2]
        have h1 : (c ++ cs.flatten).take (63 + 1) = c := by
          have := List.take_left c cs.flatten
          rw [hc64] at this
          exact this
        have h2 : (c ++ cs.flatten).drop (63 + 1) = cs.flatten := by
          have := List.drop_left c cs.flatten
          rw [hc64] at this
          exact this
        rw [h1, h2, ih cs hrest]

theorem zipWith_xorb_cancel (ks : List Nat) :
    ∀ p : List Nat, p.length ≤ ks.length →
      List.zipWith xorb ks (List.zipWith xorb ks p) = p := by
  induction ks with
  | nil =>
    intro p h
    have : p = [] := by cases p <;> simp_all
    subst this
    rfl
  | cons k ks ih =>
    intro p h
    cases p with
    | nil => rfl
    | cons a as =>
      simp only [List.zipWith_cons_cons, xorb, Nat.xor_cancel_left,
        List.cons.injEq, true_and]
      exact ih as (by simpa using h)

theorem ietfKS_length (s : InternalState) (bc : Nat)
    (hlen : s.state.length = 16) : (ietfKS s bc).length = 64 := by
  rw [ietfKS, storeWordsLE_length, ietf_ks_length, hlen]

theorem encryptLoop_cons_ok (ic idx : Nat) (s : InternalState)
    (p d : List Nat) (ps ds : List (List Nat)) (hietf : s.is_ietf = true)
    (hcnt : s.internal_counter = idx)
    (hcr : ic + idx % 4294967296 < 4294967296)
    (hpa : idx + 1 < 4294967296) :
    encryptLoop ic s idx (p :: ps) (d :: ds) =
      ((if d.length = 64 then
          List.zipWith xorb (ietfKS s (ic + idx % 4294967296)) p
            ++ (ietfKS s (ic + idx % 4294967296)).drop p.length
        else
          List.zipWith xorb (ietfKS s (ic + idx % 4294967296)) p
            ++ d.drop p.length)
        :: (encryptLoop ic (nextState s (ic + idx % 4294967296)) (idx + 1)
              ps ds).1,
       (encryptLoop ic (nextState s (ic + idx % 4294967296)) (idx + 1)
          ps ds).2) := by
  have hpb := process_block_ietf s (ic + idx % 4294967296) hietf (by omega)
  rw [hcnt] at hpb
  have hser := serialize_block_ietf
    (InternalState.mk (s.state.set 12 (ic + idx % 4294967296)) (idx + 1) true)
    rfl
    (List.zipWith wadd (tenRounds (s.state.set 12 (ic + idx % 4294967296)))
      (s.state.set 12 (ic + idx % 4294967296)))
  simp only [encryptLoop, if_neg (by omega : ¬ 4294967296 ≤ ic + idx % 4294967296),
    hpb, hser, ietfKS, nextState, hcnt]

theorem encryptLoop_roundtrip (ps : List (List Nat)) :
    ∀ (ds1 ds2 : List (List Nat)) (s : InternalState) (ic idx : Nat),
      s.is_ietf = true → s.internal_counter = idx → s.state.length = 16 →
      Aligned ps ds1 → Aligned ps ds2 →
      (∀ j, j < ps.length → stepOK ic (idx + j)) →
      ∃ cs, encryptLoop ic s idx ps ds1 = (cs, .ok ()) ∧ Aligned ps cs ∧
        encryptLoop ic s idx cs ds2 = (ps, .ok ()) := by
  induction ps with
  | nil =>
    intro ds1 ds2 s ic idx _ _ _ ha1 ha2 _
    cases ha1
    cases ha2
    exact ⟨[], rfl, .nil, rfl⟩
  | cons p ps ih =>
    intro ds1 ds2 s ic idx hietf hcnt hlen ha1 ha2 hok
    cases ha1 with
    | cons _ d1 _ ds1 hpd1 hp64 hrest1 =>
    cases ha2 with
    | cons _ d2 _ ds2 hpd2 _ hrest2 =>
    obtain ⟨hcr, hpa⟩ := hok 0 (by simp)
    rw [Nat.add_zero] at hcr hpa
    have hks := ietfKS_length s (ic + idx % 4294967296) hlen
    have hs1c : (nextState s (ic + idx % 4294967296)).internal_counter
        = idx + 1 := by
      simp [nextState, hcnt]
    have hs1l : (nextState s (ic + idx % 4294967296)).state.length = 16 := by
      simp [nextState, List.length_set, hlen]
    obtain ⟨cs, h1, haligned, h2⟩ := ih ds1 ds2
      (nextState s (ic + idx % 4294967296)) ic (idx + 1) rfl hs1c hs1l
      hrest1 hrest2
      (by
        intro j hj
        have h := hok (j + 1) (by simpa using Nat.succ_lt_succ hj)
        have harg : idx + (j + 1) = idx + 1 + j := by omega
        rwa [harg] at h)
    have hchunk1 :
        (if d1.length = 64 then
          List.zipWith xorb (ietfKS s (ic + idx % 4294967296)) p
            ++ (ietfKS s (ic + idx % 4294967296)).drop p.length
        else
          List.zipWith xorb (ietfKS s (ic + idx % 4294967296)) p
            ++ d1.drop p.length)
        = List.zipWith xorb (ietfKS s (ic + idx % 4294967296)) p := by
      by_cases hd : d1.length = 64
      · rw [if_pos hd]
        have hp : p.length = 64 := by omega
        have : (ietfKS s (ic + idx % 4294967296)).drop p.length = [] :=
          List.drop_eq_nil_of_le (by omega)
        simp [this]
      · rw [if_neg hd]
        have : d1.drop p.length = [] := List.drop_eq_nil_of_le (by omega)
        simp [this]
    have hzlen : (List.zipWith xorb (ietfKS s (ic + idx % 4294967296)) p).length
        = p.length := by
      simp [List.length_zipWith]
      omega
    refine ⟨List.zipWith xorb (ietfKS s (ic + idx % 4294967296)) p :: cs,
      ?_, ?_, ?_⟩
    · rw [encryptLoop_cons_ok ic idx s p d1 ps ds1 hietf hcnt hcr hpa,
        hchunk1, h1]
    · exact .cons _ _ _ _ hzlen.symm (by omega) haligned
    · rw [encryptLoop_cons_ok ic idx s _ d2 cs ds2 hietf hcnt hcr hpa, h2]
      have hcancel : List.zipWith xorb (ietfKS s (ic + idx % 4294967296))
          (List.zipWith xorb (ietfKS s (ic + idx % 4294967296)) p) = p :=
        zipWith_xorb_cancel _ p (by omega)
      by_cases hd : d2.length = 64
      · rw [if_pos hd]
        have : (ietfKS s (ic + idx % 4294967296)).drop
            (List.zipWith xorb (ietfKS s (ic + idx % 4294967296)) p).length
            = [] := List.drop_eq_nil_of_le (by omega)
        rw [this, hcancel]
        simp
      · rw [if_neg hd]
        have : d2.drop
            (List.zipWith xorb (ietfKS s (ic + idx % 4294967296)) p).length
            = [] := List.drop_eq_nil_of_le (by omega)
        rw [this, hcancel]
        simp

theorem encryptLoop_fail (ps : List (List Nat)) :
    ∀ (ds : List (List Nat)) (s : InternalState) (ic idx : Nat),
      s.is_ietf = true → s.internal_counter = idx →
      (∃ j, j < ps.length ∧ j < ds.length ∧ ¬ stepOK ic (idx + j)) →
      (encryptLoop ic s idx ps ds).2 ≠ .ok () := by
  induction ps with
  | nil =>
    rintro ds s ic idx _ _ ⟨j, hj, _, _⟩
    simp at hj
  | cons p ps ih =>
    rintro ds s ic idx hietf hcnt ⟨j, hj1, hj2, hbad⟩
    cases ds with
    | nil => simp at hj2
    | cons d ds =>
      by_cases hfail0 : stepOK ic idx
      · obtain ⟨hcr, hpa⟩ := hfail0
        have hj0 : j ≠ 0 := by
          rintro rfl
          rw [Nat.add_zero] at hbad
          exact hbad ⟨hcr, hpa⟩
        rw [encryptLoop_cons_ok ic idx s p d ps ds hietf hcnt hcr hpa]
        apply ih ds (nextState s (ic + idx % 4294967296)) ic (idx + 1) rfl
          (by simp [nextState, hcnt])
        refine ⟨j - 1, by simp at hj1; omega, by simp at hj2; omega, ?_⟩
        have harg : idx + 1 + (j - 1) = idx + j := by omega
        rwa [harg]
      · rcases Nat.lt_or_ge (ic + idx % 4294967296) 4294967296 with hlt | hge
        · have hpa : 4294967296 ≤ idx + 1 := by
            unfold stepOK at hfail0
            omega
          have hpb : process_block s (some (ic + idx % 4294967296))
              = .error .panic := process_block_panic s _ hietf (by omega)
          simp only [encryptLoop, if_neg (by omega :
            ¬ 4294967296 ≤ ic + idx % 4294967296), hpb]
          simp
        · simp only [encryptLoop, if_pos hge]
          simp

theorem encryptLoop_ok_flatten_length (ps : List (List Nat)) :
    ∀ (ds : List (List Nat)) (s : InternalState) (ic idx : Nat),
      s.is_ietf = true → s.state.length = 16 → Aligned ps ds →
      (encryptLoop ic s idx ps ds).2 = .ok () →
      (encryptLoop ic s idx ps ds).1.flatten.length = ds.flatten.length := by
  induction ps with
  | nil =>
    intro ds s ic idx _ _ ha _
    cases ha
    rfl
  | cons p ps ih =>
    intro ds s ic idx hietf hlen ha hok
    cases ha with
    | cons _ d _ ds hpd hp64 hrest =>
      by_cases hcr : 4294967296 ≤ ic + idx % 4294967296
      · simp only [encryptLoop, if_pos hcr] at hok
        simp at hok
      · by_cases hpa : 4294967296 ≤ s.internal_counter + 1
        · have hpb := process_block_panic s (ic + idx % 4294967296) hietf hpa
          simp only [encryptLoop, if_neg hcr, hpb] at hok
          simp at hok
        · have hpb := process_block_ietf s (ic + idx % 4294967296) hietf
            (by omega)
          have hser := serialize_block_ietf
            (InternalState.mk (s.state.set 12 (ic + idx % 4294967296))
              (s.internal_counter + 1) true) rfl
            (List.zipWith wadd
              (tenRounds (s.state.set 12 (ic + idx % 4294967296)))
              (s.state.set 12 (ic + idx % 4294967296)))
          have hks : (storeWordsLE (List.zipWith wadd
              (tenRounds (s.state.set 12 (ic + idx % 4294967296)))
              (s.state.set 12 (ic + idx % 4294967296)))).length = 64 := by
            rw [storeWordsLE_length, ietf_ks_length, hlen]
          simp only [encryptLoop, if_neg hcr, hpb, hser] at hok ⊢
          have htail := ih ds
            (InternalState.mk (s.state.set 12 (ic + idx % 4294967296))
              (s.internal_counter + 1) true) ic (idx + 1) rfl
            (by simp [List.length_set, hlen]) hrest hok
          simp only [List.flatten_cons, List.length_append, htail]
          by_cases hd : d.length = 64
          · rw [if_pos hd]
            simp only [List.length_append, List.length_zipWith,
              List.length_drop, hks]
            omega
          · rw [if_neg hd]
            simp only [List.length_append, List.length_zipWith,
              List.length_drop, hks]
            omega

theorem chacha20_encrypt_ok_length (key nonce pt dst ct : List Nat) (ic : Nat)
    (hd : dst.length = pt.length)
    (h : chacha20_encrypt key nonce ic pt dst = .ok ct) :
    ct.length = pt.length := by
  rcases hef : encryptFull key nonce ic pt dst with ⟨d, r⟩
  cases r with
  | error e =>
    rw [chacha20_encrypt, hef] at h
    simp at h
  | ok u =>
    cases u
    rw [chacha20_encrypt, hef] at h
    cases h
    by_cases hpt : pt = []
    · rw [encryptFull, if_neg (by omega), if_pos hpt] at hef
      simp at hef
    · rcases hs : chachaInit key nonce true with s | e
      · obtain ⟨_, _, hlen, hietf, _⟩ := chachaInit_ietf_inv key nonce s hs
        rw [encryptFull, if_neg (by omega), if_neg hpt, hs] at hef
        simp only [Prod.mk.injEq] at hef
        obtain ⟨hd1, hd2⟩ := hef
        have := encryptLoop_ok_flatten_length (chunks64 pt) (chunks64 dst) s
          ic 0 hietf hlen (aligned_chunks64 pt dst hd.symm) hd2
        rw [hd1] at this
        rw [this, chunks64_flatten, hd]
      · rw [encryptFull, if_neg (by omega), if_neg hpt, hs] at hef
        simp at hef

theorem encryptFull_overflow_fail (key nonce pt dst : List Nat) (ic : Nat)
    (hpt : pt ≠ []) (hlen : pt.length ≤ dst.length)
    (hov : 4294967296 ≤ ic + ((chunks64 pt).length - 1)) :
    (encryptFull key nonce ic pt dst).2 ≠ .ok () := by
  rw [encryptFull, if_neg (by omega), if_neg hpt]
  rcases hs : chachaInit key nonce true with s | e
  · obtain ⟨_, _, _, hietf, hcnt⟩ := chachaInit_ietf_inv key nonce s hs
    have hN : 1 ≤ (chunks64 pt).length := by
      have := chunks64_ne_nil pt hpt
      cases hcs : chunks64 pt with
      | nil => exact absurd hcs this
      | cons c cs => simp
    have hdlen : (chunks64 pt).length ≤ (chunks64 dst).length := by
      rw [chunks64_length, chunks64_length]
      exact Nat.div_le_div_right (by omega)
    apply encryptLoop_fail (chunks64 pt) (chunks64 dst) s ic 0 hietf hcnt
    by_cases hic : ic = 0
    · refine ⟨4294967295, by omega, by omega, ?_⟩
      unfold stepOK
      omega
    · refine ⟨4294967296 - ic, by omega, by omega, ?_⟩
      unfold stepOK
      have : (4294967296 - ic) % 4294967296 = 4294967296 - ic :=
        Nat.mod_eq_of_lt (by omega)
      omega
  · simp

theorem encryptFull_exhaust_fail (key nonce pt dst : List Nat) (ic : Nat)
    (hpt : pt ≠ []) (hlen : pt.length ≤ dst.length)
    (hN : 4294967296 ≤ (chunks64 pt).length) :
    (encryptFull key nonce ic pt dst).2 ≠ .ok () := by
  rw [encryptFull, if_neg (by omega), if_neg hpt]
  rcases hs : chachaInit key nonce true with s | e
  · obtain ⟨_, _, _, hietf, hcnt⟩ := chachaInit_ietf_inv key nonce s hs
    have hdlen : (chunks64 pt).length ≤ (chunks64 dst).length := by
      rw [chunks64_length, chunks64_length]
      exact Nat.div_le_div_right (by omega)
    apply encryptLoop_fail (chunks64 pt) (chunks64 dst) s ic 0 hietf hcnt
    refine ⟨4294967295, by omega, by omega, ?_⟩
    unfold stepOK
    omega
  · simp

theorem chacha20_encrypt_isOk_false (key nonce pt dst : List Nat) (ic : Nat)
    (h : (encryptFull key nonce ic pt dst).2 ≠ .ok ()) :
    (chacha20_encrypt key nonce ic pt dst).isOk = false := by
  rcases hef : encryptFull key nonce ic pt dst with ⟨d, r⟩
  cases r with
  | ok u =>
    cases u
    rw [hef] at h
    simp at h
  | error e =>
    rw [chacha20_encrypt, hef]
    rfl

/-- Claim C2 (amended): for every 32-byte key, 12-byte nonce, initial counter
ic, and non-empty plaintext P such that ic plus the index of every 64-byte
chunk of P fits in a u32 and the number of chunks is below 2^32 (so the
engine's internal invocation counter is not exhausted either),
`chacha20::decrypt(key, nonce, ic, ·)` applied to the ciphertext produced by
`chacha20::encrypt(key, nonce, ic, P)` (with destination buffers of
length |P|) succeeds and yields exactly P. -/
theorem chacha20_roundtrip (key nonce pt dst1 dst2 : List Nat) (ic : Nat)
    (hk : key.length = 32) (hn : nonce.length = 12) (hpt : pt ≠ [])
    (hd1 : dst1.length = pt.length) (hd2 : dst2.length = pt.length)
    (hov : ∀ i, i < (chunks64 pt).length → ic + i < 4294967296)
    (hN : (chunks64 pt).length < 4294967296) :
    ∃ ct, chacha20_encrypt key nonce ic pt dst1 = .ok ct ∧
      chacha20_decrypt key nonce ic ct dst2 = .ok pt := by
  obtain ⟨s, hs, hlen, hiet, hcnt⟩ := chachaInit_ietf_props key nonce hk hn
  have ha1 : Aligned (chunks64 pt) (chunks64 dst1) :=
    aligned_chunks64 pt dst1 hd1.symm
  have ha2 : Aligned (chunks64 pt) (chunks64 dst2) :=
    aligned_chunks64 pt dst2 hd2.symm
  have hstep : ∀ j, j < (chunks64 pt).length → stepOK ic (0 + j) := by
    intro j hj
    have h1 := hov j hj
    unfold stepOK
    have hjlt : j < 4294967296 := by omega
    rw [Nat.zero_add, Nat.mod_eq_of_lt hjlt]
    omega
  obtain ⟨cs, h1, hal, h2⟩ := encryptLoop_roundtrip (chunks64 pt)
    (chunks64 dst1) (chunks64 dst2) s ic 0 hiet hcnt hlen ha1 ha2 hstep
  have hctlen : cs.flatten.length = pt.length := by
    have := aligned_flatten_length (chunks64 pt) cs hal
    rw [chunks64_flatten] at this
    omega
  refine ⟨cs.flatten, ?_, ?_⟩
  · rw [chacha20_encrypt, encryptFull, if_neg (by omega), if_neg hpt, hs]
    simp only [h1]
  · have hctne : cs.flatten ≠ [] := by
      intro hcon
      rw [hcon] at hctlen
      simp at hctlen
      exact hpt (List.eq_nil_of_length_eq_zero hctlen.symm)
    rw [chacha20_decrypt, chacha20_encrypt, encryptFull,
      if_neg (by omega), if_neg hctne, hs, chunks64_flatten_eq pt cs hal]
    simp only [h2, chunks64_flatten]

theorem chacha20_roundtrip_witness :
    (List.replicate 32 0 : List Nat).length = 32 ∧
    (List.replicate 12 0 : List Nat).length = 12 ∧
    ([1, 2, 3] : List Nat) ≠ [] ∧
    (∀ i, i < (chunks64 [1, 2, 3]).length → 0 + i < 4294967296) ∧
    (chunks64 [1, 2, 3]).length < 4294967296 ∧
    ∃ ct, chacha20_encrypt (List.replicate 32 0) (List.replicate 12 0) 0
        [1, 2, 3] [0, 0, 0] = .ok ct ∧
      chacha20_decrypt (List.replicate 32 0) (List.replicate 12 0) 0 ct
        [0, 0, 0] = .ok [1, 2, 3] :=
  ⟨by decide, by decide, by decide, by decide, by decide,
    chacha20_roundtrip (List.replicate 32 0) (List.replicate 12 0) [1, 2, 3]
      [0, 0, 0] [0, 0, 0] 0 (by decide) (by decide) (by decide) (by decide)
      (by decide) (by decide) (by decide)⟩

/-- Counterexample to claim C2 as stated: for the all-zero key and nonce,
initial counter 0, and the all-zero plaintext of 2^32 chunks
(2^32 * 64 = 274877906944 bytes), every per-chunk counter 0 + i fits in a
u32 (the first conjunct checks the claim's hypothesis: the largest chunk
index is 2^32 - 1), yet encrypt produces no ciphertext at all — the
engine's internal invocation counter is exhausted at chunk 2^32 - 1, a
panic — so decrypt applied to "the ciphertext produced by encrypt" cannot
succeed and yield P. -/
theorem chacha20_roundtrip_giant_counterexample :
    (chunks64 (List.replicate 274877906944 0)).length - 1 < 4294967296 ∧
    (chacha20_encrypt (List.replicate 32 0) (List.replicate 12 0) 0
      (List.replicate 274877906944 0)
      (List.replicate 274877906944 0)).isOk = false := by
  constructor
  · rw [chunks64_length, List.length_replicate]
    norm_num
  · apply chacha20_encrypt_isOk_false
    apply encryptFull_exhaust_fail
    · intro h
      have h2 := congrArg List.length h
      rw [List.length_replicate] at h2
      simp at h2
    · exact Nat.le_refl _
    · rw [chunks64_length, List.length_replicate]

/-- Claim C3: `keystream_block` on the RFC 8439 section 2.3.2 test vector —
key 00,01,...,1f, nonce 00 00 00 09 00 00 00 4a 00 00 00 00, counter 1 —
returns Ok of exactly the published 64-byte keystream block. -/
theorem keystream_block_rfc8439_vector :
    keystream_block
      [0x00, 0x01, 0x02, 0x03, 0x04, 0x05, 0x06, 0x07, 0x08, 0x09, 0x0a,
       0x0b, 0x0c, 0x0d, 0x0e, 0x0f, 0x10, 0x11, 0x12, 0x13, 0x14, 0x15,
       0x16, 0x17, 0x18, 0x19, 0x1a, 0x1b, 0x1c, 0x1d, 0x1e, 0x1f]
      [0x00, 0x00, 0x00, 0x09, 0x00, 0x00, 0x00, 0x4a, 0x00, 0x00, 0x00, 0x00]
      1 =
    .ok
      [0x10, 0xf1, 0xe7, 0xe4, 0xd1, 0x3b, 0x59, 0x15, 0x50, 0x0f, 0xdd,
       0x1f, 0xa3, 0x20, 0x71, 0xc4, 0xc7, 0xd1, 0xf4, 0xc7, 0x33, 0xc0,
       0x68, 0x03, 0x04, 0x22, 0xaa, 0x9a, 0xc3, 0xd4, 0x6c, 0x4e, 0xd2,
       0x82, 0x64, 0x46, 0x07, 0x9f, 0xaa, 0x09, 0x14, 0xc2, 0xd7, 0x05,
       0xd9, 0x8b, 0x02, 0xa2, 0xb5, 0x12, 0x9c, 0xd1, 0xde, 0x16, 0x4e,
       0xb9, 0xcb, 0xd0, 0x83, 0xe8, 0xa2, 0x50, 0x3c, 0x4e] := by
  decide

/-- Claim C7 (amended): whenever `initial_counter + i` overflows a u32 for
some chunk index i of the non-empty plaintext (i.e. ic + chunkCount - 1
reaches 2^32), `chacha20::encrypt` fails — it never reports success — but
the failure is not atomic: chunks processed before the overflow was
detected remain written in `dst_out` (see the counterexample theorem). -/
theorem chacha20_encrypt_overflow_fails (key nonce pt dst : List Nat)
    (ic : Nat) (hpt : pt ≠ []) (hlen : pt.length ≤ dst.length)
    (hov : 4294967296 ≤ ic + ((chunks64 pt).length - 1)) :
    (chacha20_encrypt key nonce ic pt dst).isOk = false :=
  chacha20_encrypt_isOk_false key nonce pt dst ic
    (encryptFull_overflow_fail key nonce pt dst ic hpt hlen hov)

theorem chacha20_encrypt_overflow_fails_witness :
    (List.replicate 65 1 : List Nat) ≠ [] ∧
    (List.replicate 65 1 : List Nat).length ≤
      (List.replicate 65 0 : List Nat).length ∧
    4294967296 ≤ 4294967295 + ((chunks64 (List.replicate 65 1)).length - 1) ∧
    (chacha20_encrypt (List.replicate 32 0) (List.replicate 12 0) 4294967295
      (List.replicate 65 1) (List.replicate 65 0)).isOk = false :=
  ⟨by decide, by decide, by decide,
    chacha20_encrypt_overflow_fails (List.replicate 32 0)
      (List.replicate 12 0) (List.replicate 65 1) (List.replicate 65 0)
      4294967295 (by decide) (by decide) (by decide)⟩

theorem poly1305_finalize_length (c : Poly1305Ctx) :
    (poly1305_finalize c).length = 16 := by
  rw [poly1305_finalize, natToLeBytes_length]

theorem set_append_of_le (l1 l2 : List Nat) (j v : Nat) (h : l1.length ≤ j) :
    (l1 ++ l2).set j v = l1 ++ l2.set (j - l1.length) v := by
  induction l1 generalizing j with
  | nil => simp
  | cons a as ih =>
    cases j with
    | zero => simp at h
    | succ n =>
      simp only [List.cons_append, List.set_cons_succ, List.length_cons,
        Nat.succ_sub_succ]
      rw [ih n (by simpa using h)]

theorem set_xor_pow_ne (l : List Nat) (i b : Nat) (hi : i < l.length) :
    l.set i (l.getD i 0 ^^^ 2 ^ b) ≠ l := by
  intro h
  have hgd : (l.set i (l.getD i 0 ^^^ 2 ^ b)).getD i 0 = l.getD i 0 ^^^ 2 ^ b := by
    rw [List.getD_eq_getElem?_getD, List.getElem?_set_self (by omega)]
    rfl
  rw [h, List.getD_eq_getElem?_getD] at hgd
  have hpow : (2 : Nat) ^ b = 0 := by
    have h2 := congrArg (fun x => l.getD i 0 ^^^ x) hgd.symm
    simp only [List.getD_eq_getElem?_getD] at h2
    rwa [Nat.xor_cancel_left, Nat.xor_self] at h2
  exact absurd hpow (Nat.pos_iff_ne_zero.mp (Nat.pos_pow_of_pos b (by omega)))

/-- Claim C1 (amended): for every key, 24-byte (seal-generated) nonce, and
plaintext for which `aead::seal` produces a payload, flipping any single bit
of the payload's 16-byte tag region causes `aead::open` under the same key
to fail: the inner AEAD open returns the opaque error and `aead::open`
panics on its `.unwrap()` of that result (rather than returning the error),
and no plaintext bytes are released on that failure. -/
theorem aead_open_tag_bitflip_panics (key nonce24 pt payload : List Nat)
    (j b : Nat) (hn : nonce24.length = 24)
    (hseal : aead_seal key nonce24 pt = .ok payload)
    (hj1 : payload.length - 16 ≤ j) (hj2 : j < payload.length) (hb : b < 8) :
    aead_open key (payload.set j (payload.getD j 0 ^^^ 2 ^ b))
      = .error .panic := by
  have hpt : pt ≠ [] := by
    intro hcon
    simp only [aead_seal, if_pos hcon] at hseal
    exact Res.noConfusion hseal
  obtain ⟨ct_tag, hhs⟩ : ∃ ct_tag,
      aead_hazardous_seal key nonce24 pt = .ok ct_tag := by
    rcases h2 : aead_hazardous_seal key nonce24 pt with ct_tag | e
    · exact ⟨ct_tag, rfl⟩
    · simp only [aead_seal, if_neg hpt, h2] at hseal
      exact Res.noConfusion hseal
  have hseal2 : nonce24 ++ ct_tag = payload := by
    simp only [aead_seal, if_neg hpt, hhs, Res.ok.injEq] at hseal
    exact hseal
  obtain ⟨subkey, hsub⟩ : ∃ subkey,
      xchacha_subkey key nonce24 = .ok subkey := by
    rcases h2 : xchacha_subkey key nonce24 with subkey | e
    · exact ⟨subkey, rfl⟩
    · simp only [aead_hazardous_seal, h2] at hhs
      exact Res.noConfusion hhs
  obtain ⟨b0, hb0⟩ : ∃ b0,
      keystream_block subkey (xchacha_ietf_nonce nonce24) 0 = .ok b0 := by
    rcases h2 : keystream_block subkey (xchacha_ietf_nonce nonce24) 0
      with b0 | e
    · exact ⟨b0, rfl⟩
    · simp only [aead_hazardous_seal, hsub, h2] at hhs
      exact Res.noConfusion hhs
  obtain ⟨ct, hct⟩ : ∃ ct,
      chacha20_encrypt subkey (xchacha_ietf_nonce nonce24) 1 pt
        (List.replicate pt.length 0) = .ok ct := by
    rcases h2 : chacha20_encrypt subkey (xchacha_ietf_nonce nonce24) 1 pt
        (List.replicate pt.length 0) with ct | e
    · exact ⟨ct, rfl⟩
    · simp only [aead_hazardous_seal, hsub, hb0, h2] at hhs
      exact Res.noConfusion hhs
  have hhs2 : ct ++ poly1305_finalize (poly1305_update
      (poly1305_init (b0.take 32)) (aeadMacData ct)) = ct_tag := by
    simp only [aead_hazardous_seal, hsub, hb0, hct, Res.ok.injEq] at hhs
    exact hhs
  set mac := poly1305_finalize
    (poly1305_update (poly1305_init (b0.take 32)) (aeadMacData ct))
    with hmacdef
  have hmac16 : mac.length = 16 := poly1305_finalize_length _
  have hctlen : ct.length = pt.length :=
    chacha20_encrypt_ok_length subkey (xchacha_ietf_nonce nonce24) pt
      (List.replicate pt.length 0) ct 1 (by simp) hct
  have hptpos : 0 < pt.length := List.length_pos.mpr hpt
  have hpayload : payload = (nonce24 ++ ct) ++ mac := by
    rw [← hseal2, ← hhs2, List.append_assoc]
  have hplen : payload.length = 40 + pt.length := by
    rw [hpayload]
    simp [hn, hmac16, hctlen]
    omega
  have hprefix : (nonce24 ++ ct).length = 24 + pt.length := by
    simp [hn, hctlen]
  have hjge : (nonce24 ++ ct).length ≤ j := by omega
  have hset : payload.set j (payload.getD j 0 ^^^ 2 ^ b)
      = (nonce24 ++ ct) ++ mac.set (j - (24 + pt.length))
          (mac.getD (j - (24 + pt.length)) 0 ^^^ 2 ^ b) := by
    rw [hpayload, set_append_of_le _ _ _ _ hjge,
      List.getD_append_right _ _ _ _ hjge, hprefix]
  rw [hset]
  set i := j - (24 + pt.length) with hidef
  have hi16 : i < 16 := by omega
  set mac2 := mac.set i (mac.getD i 0 ^^^ 2 ^ b) with hmac2def
  have hmac2len : mac2.length = 16 := by
    rw [hmac2def, List.length_set, hmac16]
  have hmacne : mac ≠ mac2 := by
    intro hcon
    exact set_xor_pow_ne mac i b (by omega) hcon.symm
  have hlen2 : ((nonce24 ++ ct) ++ mac2).length = 40 + pt.length := by
    simp [hn, hctlen, hmac2len]
    omega
  rw [aead_open, if_neg (by omega)]
  have htake : ((nonce24 ++ ct) ++ mac2).take 24 = nonce24 := by
    rw [List.append_assoc, ← hn, List.take_left]
  have hdrop : ((nonce24 ++ ct) ++ mac2).drop 24 = ct ++ mac2 := by
    rw [List.append_assoc, ← hn, List.drop_left]
  rw [htake, hdrop]
  have hctm2len : (ct ++ mac2).length = pt.length + 16 := by
    simp [hctlen, hmac2len]
  rw [aead_hazardous_open, if_neg (by omega)]
  have htake2 : (ct ++ mac2).take ((ct ++ mac2).length - 16) = ct := by
    rw [hctm2len]
    have : pt.length + 16 - 16 = ct.length := by omega
    rw [this, List.take_left]
  have hdrop2 : (ct ++ mac2).drop ((ct ++ mac2).length - 16) = mac2 := by
    rw [hctm2len]
    have : pt.length + 16 - 16 = ct.length := by omega
    rw [this, List.drop_left]
  rw [htake2, hdrop2]
  simp only [hsub, hb0, ← hmacdef]
  rw [if_pos hmacne]

theorem aead_open_tag_bitflip_panics_witness :
    (List.replicate 24 0 : List Nat).length = 24 ∧
    aead_seal (List.replicate 32 0) (List.replicate 24 0) [97]
      = .ok c1Payload ∧
    c1Payload.length - 16 ≤ 40 ∧ 40 < c1Payload.length ∧ (0 : Nat) < 8 ∧
    aead_open (List.replicate 32 0)
      (c1Payload.set 40 (c1Payload.getD 40 0 ^^^ 2 ^ 0)) = .error .panic :=
  ⟨by decide, by decide, by decide, by decide, by decide,
    aead_open_tag_bitflip_panics (List.replicate 32 0) (List.replicate 24 0)
      [97] c1Payload 40 0 (by decide) (by decide) (by decide) (by decide)
      (by decide)⟩

/-- Counterexample to claim C1 as stated: for the all-zero key and nonce and
plaintext [97], flipping bit 0 of the last tag byte of the sealed payload
makes `aead::open` fail by a panic (the `.unwrap()` on the inner open's
opaque error in src/aead.rs), which is not an error return of the opaque
`UnknownCryptoError` — the claim's required observable outcome. -/
theorem aead_open_bitflip_not_error_return :
    aead_seal (List.replicate 32 0) (List.replicate 24 0) [97]
      = .ok c1Payload ∧
    aead_open (List.replicate 32 0)
      (c1Payload.set 40 (c1Payload.getD 40 0 ^^^ 2 ^ 0)) = .error .panic ∧
    (Res.error CErr.panic : Res (List Nat)) ≠ .error .crypto :=
  ⟨by decide, by decide, by decide⟩

/-- Counterexample to claim C7 as stated: with the all-zero key and nonce,
initial counter 2^32 - 1, and a 65-byte plaintext of ones, encrypt fails
with the opaque error when the second chunk's counter overflows, but the
failure is not atomic — the first 64-byte chunk's ciphertext has already
been written into `dst_out`, so `dst_out` does not hold "no output of the
failed call". -/
theorem chacha20_encrypt_overflow_partial_write :
    (encryptFull (List.replicate 32 0) (List.replicate 12 0) 4294967295
      (List.replicate 65 1) (List.replicate 65 0)).2 = .error .crypto ∧
    (encryptFull (List.replicate 32 0) (List.replicate 12 0) 4294967295
      (List.replicate 65 1) (List.replicate 65 0)).1 ≠
      List.replicate 65 0 := by
  decide

/-! Lemmas about the secret-stream construction. -/

theorem ss_new_ok_counter (key nonce24 : List Nat) (s : SecretStreamState)
    (h : ss_new key nonce24 = .ok s) : s.counter = 1 := by
  rcases h0 : hchacha20 key (nonce24.take 16) with out | e
  · simp only [ss_new, h0] at h
    cases h
    rfl
  · simp only [ss_new, h0] at h
    exact Res.noConfusion h

theorem ss_rekey_ok_counter (s s2 : SecretStreamState)
    (h : ss_rekey s = .ok s2) : s2.counter = 1 := by
  rcases h0 : chacha20_encrypt_in_place s.key (ss_get_nonce s) 0
      (s.key.take 32 ++ s.r_nonce) with out | e
  · simp only [ss_rekey, h0] at h
    cases h
    rfl
  · simp only [ss_rekey, h0] at h
    exact Res.noConfusion h

theorem chacha20_encrypt_ok_of (key nonce pt dst : List Nat) (ic : Nat)
    (hk : key.length = 32) (hn : nonce.length = 12) (hpt : pt ≠ [])
    (hd : dst.length = pt.length)
    (hov : ∀ i, i < (chunks64 pt).length → ic + i < 4294967296)
    (hN : (chunks64 pt).length < 4294967296) :
    ∃ ct, chacha20_encrypt key nonce ic pt dst = .ok ct := by
  obtain ⟨s, hs, hlen, hiet, hcnt⟩ := chachaInit_ietf_props key nonce hk hn
  have hstep : ∀ j, j < (chunks64 pt).length → stepOK ic (0 + j) := by
    intro j hj
    have h1 := hov j hj
    unfold stepOK
    have hjlt : j < 4294967296 := by omega
    rw [Nat.zero_add, Nat.mod_eq_of_lt hjlt]
    omega
  obtain ⟨cs, h1, hal, h2⟩ := encryptLoop_roundtrip (chunks64 pt)
    (chunks64 dst) (chunks64 dst) s ic 0 hiet hcnt hlen
    (aligned_chunks64 pt dst hd.symm) (aligned_chunks64 pt dst hd.symm) hstep
  refine ⟨cs.flatten, ?_⟩
  rw [chacha20_encrypt, encryptFull, if_neg (by omega), if_neg hpt, hs]
  simp only [h1]

theorem ss_get_nonce_length (s : SecretStreamState)
    (hr : s.r_nonce.length = 8) : (ss_get_nonce s).length = 12 := by
  simp [ss_get_nonce, natToLeBytes_length, hr]

theorem ss_block0_ok (s : SecretStreamState) (hk : s.key.length = 32)
    (hr : s.r_nonce.length = 8) : ∃ b0, ss_block0 s = .ok b0 := by
  rw [ss_block0, chacha20_encrypt_in_place]
  exact chacha20_encrypt_ok_of s.key (ss_get_nonce s) (List.replicate 64 0)
    (List.replicate 64 0) 0 hk (ss_get_nonce_length s hr) (by decide) rfl
    (by decide) (by decide)

theorem ss_block1_ok (s : SecretStreamState) (b : Nat)
    (hk : s.key.length = 32) (hr : s.r_nonce.length = 8) :
    ∃ b1, ss_block1 s b = .ok b1 := by
  rw [ss_block1, chacha20_encrypt_in_place]
  have hc : (chunks64 (b :: List.replicate 63 0)).length = 1 := by
    rw [chunks64_length]
    simp
  apply chacha20_encrypt_ok_of s.key (ss_get_nonce s)
    (b :: List.replicate 63 0) (b :: List.replicate 63 0) 1 hk
    (ss_get_nonce_length s hr) (by simp) rfl
  · intro i hi
    rw [hc] at hi
    omega
  · rw [hc]
    omega

theorem ss_pull_mac_of_blocks (s : SecretStreamState) (cipher : List Nat)
    (ad : Option (List Nat)) (b0 b1 : List Nat)
    (h0 : ss_block0 s = .ok b0)
    (h1 : ss_block1 s (cipher.getD 0 0) = .ok b1) :
    ∃ mac, ss_pull_mac s cipher ad = .ok mac ∧ mac.length = 16 := by
  simp only [ss_pull_mac, h0, h1]
  exact ⟨_, rfl, poly1305_finalize_length _⟩

theorem ss_push_ok_counter (s : SecretStreamState) (pt : List Nat)
    (ad : Option (List Nat)) (dst : List Nat) (tag : Nat)
    (s1 : SecretStreamState) (out : List Nat)
    (h : ss_push s pt ad dst tag = (s1, out, .ok ())) : s1.counter ≠ 0 := by
  simp only [ss_push] at h
  split at h
  next => simp at h
  next =>
    split at h
    next => simp at h
    next b0 heq0 =>
      split at h
      next => simp at h
      next b1 heq1 =>
        split at h
        next dpart e heq2 => simp at h
        next dpart heq2 =>
          split at h
          next hguard =>
            split at h
            next e heq3 => simp at h
            next s2 heq3 =>
              simp only [Prod.mk.injEq] at h
              obtain ⟨h1, -, -⟩ := h
              rw [← h1, ss_rekey_ok_counter _ s2 heq3]
              omega
          next hguard =>
            simp only [Prod.mk.injEq] at h
            obtain ⟨h1, -, -⟩ := h
            rw [← h1]
            intro hc
            exact hguard (Or.inr hc)

theorem ss_pull_ok_counter (s : SecretStreamState) (cipher : List Nat)
    (ad : Option (List Nat)) (pt_out : List Nat) (s1 : SecretStreamState)
    (out : List Nat) (t : Nat)
    (h : ss_pull s cipher ad pt_out = (s1, out, .ok t)) : s1.counter ≠ 0 := by
  simp only [ss_pull] at h
  split at h
  next => simp at h
  next =>
    split at h
    next => simp at h
    next =>
      split at h
      next => simp at h
      next b0 heq0 =>
        split at h
        next => simp at h
        next b1 heq1 =>
          split at h
          next => simp at h
          next tg heqt =>
            split at h
            next => simp at h
            next mac heqm =>
              split at h
              next => simp at h
              next =>
                split at h
                next buf e heq2 => simp at h
                next buf heq2 =>
                  split at h
                  next hguard =>
                    split at h
                    next e heq3 => simp at h
                    next s2 heq3 =>
                      simp only [Prod.mk.injEq] at h
                      obtain ⟨h1, -, -⟩ := h
                      rw [← h1, ss_rekey_ok_counter _ s2 heq3]
                      omega
                  next hguard =>
                    simp only [Prod.mk.injEq] at h
                    obtain ⟨h1, -, -⟩ := h
                    rw [← h1]
                    intro hc
                    exact hguard (Or.inr hc)

/-- Claim C9: in every secret-stream session state reachable by successful
new/init/push/pull/rekey operations, the message counter is never 0 —
new, init and rekey set it to 1, and push/pull either leave a non-zero
incremented counter or trigger rekey (which resets it to 1) before
returning. -/
theorem ss_counter_never_zero (s : SecretStreamState) (h : SSReach s) :
    s.counter ≠ 0 := by
  induction h with
  | of_new key nonce24 s hnew =>
    rw [ss_new_ok_counter key nonce24 s hnew]
    omega
  | of_init s0 key nonce24 s hinit =>
    rw [ss_new_ok_counter key nonce24 s hinit]
    omega
  | of_rekey s s1 hs hrk ih =>
    rw [ss_rekey_ok_counter s s1 hrk]
    omega
  | of_push s pt ad dst tag s1 out hs hp ih =>
    exact ss_push_ok_counter s pt ad dst tag s1 out hp
  | of_pull s cipher ad pt_out s1 out t hs hp ih =>
    exact ss_pull_ok_counter s cipher ad pt_out s1 out t hp

theorem ss_counter_never_zero_witness :
    SSReach ssZeroState ∧ ssZeroState.counter ≠ 0 :=
  have hreach : SSReach ssZeroState :=
    .of_new (List.replicate 32 0) (List.replicate 24 0) ssZeroState
      (by decide)
  ⟨hreach, ss_counter_never_zero ssZeroState hreach⟩

/-- Claim C10: `SecretStreamXChaCha20Poly1305::new` (and `init`, which
delegates to it) is total: for every 32-byte key and 24-byte nonce it
succeeds — the internal hchacha20 call receives exactly the 16-byte nonce
prefix, so its wrong-length error branch and the `.unwrap()` in `new` are
unreachable — and the resulting state has counter 1 and the nonce's 8-byte
suffix as its nonce remainder. -/
theorem ss_new_total (key nonce24 : List Nat) (hk : key.length = 32)
    (hn : nonce24.length = 24) :
    ∃ st, ss_new key nonce24 = .ok st ∧ st.counter = 1 ∧
      st.r_nonce = nonce24.drop 16 := by
  obtain ⟨out, hout, hlen⟩ := hchacha20_ok key (nonce24.take 16) hk
    (by simp [List.length_take, hn])
  refine ⟨⟨out, 1, nonce24.drop 16⟩, ?_, rfl, rfl⟩
  simp only [ss_new, hout]

theorem ss_new_total_witness :
    (List.replicate 32 0 : List Nat).length = 32 ∧
    (List.replicate 24 0 : List Nat).length = 24 ∧
    ∃ st, ss_new (List.replicate 32 0) (List.replicate 24 0) = .ok st ∧
      st.counter = 1 ∧ st.r_nonce = (List.replicate 24 0 : List Nat).drop 16 :=
  ⟨by decide, by decide,
    ss_new_total (List.replicate 32 0) (List.replicate 24 0) (by decide)
      (by decide)⟩

/-- Claim C6: whenever the Poly1305 MAC that `pull` recomputes over its
input does not equal the 16 MAC bytes carried at the end of the input,
`pull` returns the opaque error, writes nothing to `plaintext_out`, and
leaves the session state exactly unchanged — no nonce ratchet and no rekey
happens on that failing call. -/
theorem ss_pull_mac_mismatch_rejects (s : SecretStreamState)
    (cipher : List Nat) (ad : Option (List Nat)) (pt_out mac : List Nat)
    (hmac : ss_pull_mac s cipher ad = .ok mac)
    (hne : mac ≠ (cipher.drop (1 + (cipher.length - 17))).take 16) :
    ss_pull s cipher ad pt_out = (s, pt_out, .error .crypto) := by
  obtain ⟨b0, hb0⟩ : ∃ b0, ss_block0 s = .ok b0 := by
    rcases h2 : ss_block0 s with b0 | e
    · exact ⟨b0, rfl⟩
    · simp only [ss_pull_mac, h2] at hmac
      exact Res.noConfusion hmac
  obtain ⟨b1, hb1⟩ : ∃ b1, ss_block1 s (cipher.getD 0 0) = .ok b1 := by
    rcases h2 : ss_block1 s (cipher.getD 0 0) with b1 | e
    · exact ⟨b1, rfl⟩
    · simp only [ss_pull_mac, hb0, h2] at hmac
      exact Res.noConfusion hmac
  simp only [ss_pull]
  by_cases h17 : cipher.length < 17
  · rw [if_pos h17]
  rw [if_neg h17]
  by_cases hout : pt_out.length < cipher.length - 17
  · rw [if_pos hout]
  rw [if_neg hout]
  simp only [hb0, hb1]
  rcases ht : tagFromBits (b1.getD 0 0) with _ | tg
  · simp only [ht]
  · simp only [ht, hmac]
    rw [if_pos hne]

theorem ss_pull_mac_mismatch_rejects_witness :
    ss_pull_mac ssZeroState (List.replicate 17 0) none = .ok c6Mac ∧
    c6Mac ≠ ((List.replicate 17 0 : List Nat).drop
      (1 + ((List.replicate 17 0 : List Nat).length - 17))).take 16 ∧
    ss_pull ssZeroState (List.replicate 17 0) none [] =
      (ssZeroState, [], .error .crypto) :=
  ⟨by decide, by decide,
    ss_pull_mac_mismatch_rejects ssZeroState (List.replicate 17 0) none []
      c6Mac (by decide) (by decide)⟩

/-- Claim C8 (amended): `pull` rejects any input shorter than 17 bytes with
the opaque error; moreover a 17-byte payload — even one carrying a valid
MAC for the empty message — is also always rejected, because decrypting
the zero-length ciphertext is rejected by `chacha20::encrypt`'s
empty-input check; so a minimum of 18 input bytes (1 plaintext byte) is
required for `pull` to succeed. -/
theorem ss_pull_min_length_rejects (s : SecretStreamState)
    (cipher : List Nat) (ad : Option (List Nat)) (pt_out : List Nat)
    (h : cipher.length ≤ 17) :
    (ss_pull s cipher ad pt_out).2.2.isOk = false ∧
    (cipher.length < 17 →
      ss_pull s cipher ad pt_out = (s, pt_out, .error .crypto)) := by
  by_cases h17 : cipher.length < 17
  · constructor
    · simp only [ss_pull, if_pos h17]
      rfl
    · intro _
      simp only [ss_pull, if_pos h17]
  · have h17e : cipher.length = 17 := by omega
    refine ⟨?_, by omega⟩
    have hmsg0 : cipher.length - 17 = 0 := by omega
    simp only [ss_pull, if_neg h17, hmsg0, List.take_zero]
    rw [if_neg (by omega : ¬ pt_out.length < 0)]
    rcases hb0 : ss_block0 s with b0 | e
    · simp only [hb0]
      rcases hb1 : ss_block1 s (cipher.getD 0 0) with b1 | e
      · simp only [hb1]
        rcases ht : tagFromBits (b1.getD 0 0) with _ | tg
        · simp only [ht]
          rfl
        · simp only [ht]
          obtain ⟨mac, hmac, hmac16⟩ :=
            ss_pull_mac_of_blocks s cipher ad b0 b1 hb0 hb1
          simp only [hmac]
          by_cases hcm : mac ≠ (cipher.drop (1 + 0)).take 16
          · rw [if_pos hcm]
            rfl
          · rw [if_neg hcm]
            have hef : encryptFull s.key (ss_get_nonce s) 2 [] pt_out
                = (pt_out, .error .crypto) := by
              rw [encryptFull, if_neg (by simp), if_pos rfl]
            simp only [hef]
            rfl
      · simp only [hb1]
        rfl
    · simp only [hb0]
      rfl

theorem ss_pull_min_length_rejects_witness :
    (List.replicate 10 0 : List Nat).length ≤ 17 ∧
    (ss_pull ssZeroState (List.replicate 10 0) none []).2.2.isOk = false ∧
    ((List.replicate 10 0 : List Nat).length < 17 →
      ss_pull ssZeroState (List.replicate 10 0) none [] =
        (ssZeroState, [], .error .crypto)) :=
  ⟨by decide,
    (ss_pull_min_length_rejects ssZeroState (List.replicate 10 0) none []
      (by decide)).1,
    (ss_pull_min_length_rejects ssZeroState (List.replicate 10 0) none []
      (by decide)).2⟩

/-- Counterexample to claim C8 as stated: c8Payload is 17 bytes and carries
a valid MAC for the empty message — the MAC `pull` recomputes equals the 16
wire MAC bytes — yet `pull` does not succeed on it: it returns the opaque
error (from `chacha20::encrypt`'s empty-input rejection), so a zero-length
plaintext is not accepted by the secret stream. -/
theorem ss_pull_17_byte_valid_mac_rejected :
    c8Payload.length = 17 ∧
    ss_pull_mac ssZeroState c8Payload none =
      .ok ((c8Payload.drop 1).take 16) ∧
    ss_pull ssZeroState c8Payload none [] =
      (ssZeroState, [], .error .crypto) := by
  refine ⟨by decide, by decide, by decide⟩

/-- Claim C4: starting from the session initialized with the all-zero
32-byte key and all-zero 24-byte nonce, pushing plaintext 1234 with tag
MESSAGE succeeds and writes exactly the 21-byte payload
5d1c4d54eb1738c2e8527f54f7b9bf46bcacc95f18, and pulling that exact payload
on a freshly initialized identical session succeeds, returning plaintext
1234 and reporting tag MESSAGE. -/
theorem ss_push_pull_zero_key_vector :
    ss_new (List.replicate 32 0) (List.replicate 24 0) = .ok ssZeroState ∧
    (ss_push ssZeroState [0x31, 0x32, 0x33, 0x34] none (List.replicate 21 0)
      tagMESSAGE).2 = (c4Payload, .ok ()) ∧
    (ss_pull ssZeroState c4Payload none (List.replicate 4 0)).2 =
      ([0x31, 0x32, 0x33, 0x34], .ok tagMESSAGE) := by
  refine ⟨by decide, by decide, by decide⟩

/-- Claim C5 evaluated at the failing input (code_bug): pushing with
Tag::FINISH (= PUSH | REKEY = 3) on the zero-key session succeeds but does
NOT trigger rekey — the key is unchanged and the counter advances to 2 —
because the source compares the tag byte for equality with REKEY instead of
testing the REKEY bit, contradicting the source's own doc comment on FINISH
("Also does an rekey"); pushing with Tag::REKEY (= 2) does rekey (key
replaced, counter reset to 1). -/
theorem ss_push_finish_does_not_rekey :
    (ss_push ssZeroState [0x31, 0x32, 0x33, 0x34] none
      (List.replicate 21 0) tagFINISH).2.2 = .ok () ∧
    (ss_push ssZeroState [0x31, 0x32, 0x33, 0x34] none
      (List.replicate 21 0) tagFINISH).1.key = ssZeroState.key ∧
    (ss_push ssZeroState [0x31, 0x32, 0x33, 0x34] none
      (List.replicate 21 0) tagFINISH).1.counter = 2 ∧
    (ss_push ssZeroState [0x31, 0x32, 0x33, 0x34] none
      (List.replicate 21 0) tagREKEY).1.key ≠ ssZeroState.key ∧
    (ss_push ssZeroState [0x31, 0x32, 0x33, 0x34] none
      (List.replicate 21 0) tagREKEY).1.counter = 1 := by
  refine ⟨by decide, by decide, by decide, by decide, by decide⟩

end Orion
